import Mathlib

/-!
Verification of the chainos-javascript SDK core against its specification.

The development shallowly embeds the chain compiler (`src/models/chain.ts`,
class `Chain`), the Python execution bridge decision logic
(`src/models/task.ts`, `Task.runPythonTask`), and the resource normalizer
(whose implementation file is absent from the provided sources; it is
modelled from the spec and anchored on the repository's unit tests in
`tests/unit/task.test.ts`).

Modelling conventions:
* A JavaScript `Map` is embedded as an insertion-ordered list of entries;
  the `Map` guarantees key uniqueness, which theorems carry as the
  hypothesis that entry ids are `Nodup`.
* JavaScript truthiness of `string | null` values (`if (this.entryPointId)`,
  `this.name || this.id`, `!!this.entryPointId`) is embedded faithfully:
  `null` and the empty string are falsy.
* Fields that are only copied around and never branched on by the
  algorithms under verification (task summaries, marketplace ids) are kept
  as opaque data.
* JavaScript numbers are embedded as exact rationals (`ℚ`).
-/

namespace Chainos

/-- Runtime environments, from `TaskEnvironment` in `src/models/task.ts`. -/
inductive TaskEnvironment
  | javascript
  | typescript
  | python
  | unknown
deriving DecidableEq, Repr

/-- The part of a `Task` (from `src/models/task.ts`) that the chain
compiler reads: identity, code location, entry point, detected runtime and
resources.  Runtime detection itself inspects the filesystem at
construction time; a task is embedded with its already-detected runtime. -/
structure CTask where
  id : String
  name : String
  filepath : String
  main : String
  env : TaskEnvironment
  cpu : ℚ
  memory : String
deriving DecidableEq, Repr

/-- A `preprocessing`/`postprocessing` value of a registry entry:
`ProcessorFunction | Task` in `src/models/chain.ts`. -/
inductive ProcValue
  | func
  | ptask (t : CTask)
deriving DecidableEq, Repr

/-- Registry entry type `ChainRegistryEntry` from `src/models/chain.ts`.  An absent `targets`
array and an empty one behave identically in every branch of `compile`
(JavaScript treats `[]` as truthy but iterating it does nothing), so both
are embedded as `[]`. -/
structure ChainRegistryEntry where
  id : String
  task : Option CTask := none
  marketplaceId : Option String := none
  preprocessing : Option ProcValue := none
  postprocessing : Option ProcValue := none
  targets : List String := []
deriving DecidableEq, Repr

/-- The `Chain` state read by `compile`: id, name, registry (insertion
ordered, unique ids), entry point id. -/
structure Chain where
  id : String
  name : Option String := none
  registry : List ChainRegistryEntry := []
  entryPointId : Option String := none
deriving DecidableEq, Repr

/-- Registry lookup `this.registry.get(i)`: `Map.get` keyed on entry ids. -/
def regGet (reg : List ChainRegistryEntry) (i : String) : Option ChainRegistryEntry :=
  reg.find? (fun e => e.id == i)

/-- Operation `Chain.register`: `Map.set` keyed on `entry.id` — replaces in place on
a duplicate id, appends otherwise. -/
def register (c : Chain) (e : ChainRegistryEntry) : Chain :=
  if c.registry.any (fun x => x.id == e.id) then
    { c with registry := c.registry.map (fun x => if x.id == e.id then e else x) }
  else
    { c with registry := c.registry ++ [e] }

/-- Operation `Chain.setEntryPoint`: validates that the id is registered (throwing
otherwise, embedded as `none`). -/
def setEntryPoint (c : Chain) (i : String) : Option Chain :=
  if c.registry.any (fun x => x.id == i) then some { c with entryPointId := some i }
  else none

/-- JavaScript truthiness of a `string | null` value: `null` and `""` are
falsy. -/
def strTruthy : Option String → Bool
  | none => false
  | some s => !(s == "")

/-- The kind tag of a synthesized processing node. -/
inductive ProcKind
  | preprocessing
  | postprocessing
deriving DecidableEq, Repr

/-- Id suffix used by `compile` for a processing node. -/
def procSuffix : ProcKind → String
  | .preprocessing => "_preprocessing"
  | .postprocessing => "_postprocessing"

/-- An element of the `processingNodes` working array built by the first
pass of `Chain.compile`. -/
structure ProcessingNode where
  id : String
  parentId : String
  kind : ProcKind
  ptask : Option CTask
  isFunction : Bool
deriving DecidableEq, Repr

/-- First-pass translation of one `preprocessing`/`postprocessing` value
into a `processingNodes` element. -/
def procOfValue (entryId : String) (k : ProcKind) : ProcValue → ProcessingNode
  | .func => ⟨entryId ++ procSuffix k, entryId, k, none, true⟩
  | .ptask t => ⟨entryId ++ procSuffix k, entryId, k, some t, false⟩

/-- The processing nodes contributed by one registry entry in the first
pass (preprocessing first, then postprocessing, matching source order). -/
def collectProcessing (e : ChainRegistryEntry) : List ProcessingNode :=
  (match e.preprocessing with
    | some v => [procOfValue e.id .preprocessing v]
    | none => []) ++
  (match e.postprocessing with
    | some v => [procOfValue e.id .postprocessing v]
    | none => [])

/-- All processing nodes, in first-pass order (registry order, and per
entry preprocessing before postprocessing). -/
def processingNodes (reg : List ChainRegistryEntry) : List ProcessingNode :=
  reg.flatMap collectProcessing

/-- Node type tag of a compiled node. -/
inductive NodeType
  | task
  | preprocessing
  | postprocessing
deriving DecidableEq, Repr

/-- A node of the compiled document. -/
structure Node where
  id : String
  ntype : NodeType
  task : Option CTask := none
  marketplaceId : Option String := none
  targets : List String := []
  parentId : Option String := none
  isFunction : Bool := false
deriving DecidableEq, Repr

/-- Primary node emitted for a registry entry by the first pass. -/
def primaryNode (e : ChainRegistryEntry) : Node :=
  { id := e.id, ntype := .task, task := e.task, marketplaceId := e.marketplaceId,
    targets := e.targets, parentId := none, isFunction := false }

/-- Node emitted for a processing node by the second pass. -/
def procNode (p : ProcessingNode) : Node :=
  { id := p.id,
    ntype := match p.kind with
      | .preprocessing => .preprocessing
      | .postprocessing => .postprocessing,
    task := p.ptask, parentId := some p.parentId, isFunction := p.isFunction }

/-- The compiled node list: primary nodes in registry order, then
processing nodes in first-pass order. -/
def compiledNodes (reg : List ChainRegistryEntry) : List Node :=
  reg.map primaryNode ++ (processingNodes reg).map procNode

/-- The `nodeIds` set accumulated during compilation (as a list; only
membership is ever used). -/
def nodeIds (reg : List ChainRegistryEntry) : List String :=
  (compiledNodes reg).map Node.id

/-- An edge of the compiled document. -/
structure Edge where
  source : String
  target : String
deriving DecidableEq, Repr

/-- Second-pass edges contributed by one processing node: a preprocessing
node emits `preprocessing → parent`; a postprocessing node emits
`parent → postprocessing` followed by `postprocessing → target` for each
declared target of the parent entry (looked up in the registry). -/
def processingEdges (reg : List ChainRegistryEntry) (p : ProcessingNode) : List Edge :=
  match p.kind with
  | .preprocessing => [⟨p.id, p.parentId⟩]
  | .postprocessing =>
      ⟨p.parentId, p.id⟩ ::
      (match regGet reg p.parentId with
        | some entry => entry.targets.map (fun t => ⟨p.id, t⟩)
        | none => [])

/-- Third-pass edge for one declared target of an entry without
postprocessing: redirect to the target's preprocessing node when the
registered target declares preprocessing, else a direct edge. -/
def directTargetEdge (reg : List ChainRegistryEntry) (srcId targetId : String) : Edge :=
  match regGet reg targetId with
  | some tn =>
      if tn.preprocessing.isSome then ⟨srcId, targetId ++ "_preprocessing"⟩
      else ⟨srcId, targetId⟩
  | none => ⟨srcId, targetId⟩

/-- Third-pass edges contributed by one registry entry (skipped entirely
when the entry declares postprocessing). -/
def directEdges (reg : List ChainRegistryEntry) (e : ChainRegistryEntry) : List Edge :=
  if e.postprocessing.isSome then []
  else e.targets.map (directTargetEdge reg e.id)

/-- The full generated edge list, before the final consistency filter:
second-pass edges (per processing node, in order) then third-pass edges
(per entry, in order). -/
def allEdges (reg : List ChainRegistryEntry) : List Edge :=
  (processingNodes reg).flatMap (processingEdges reg) ++ reg.flatMap (directEdges reg)

/-- The final edge list: edges whose source and target are both known node
ids. -/
def compiledEdges (reg : List ChainRegistryEntry) : List Edge :=
  (allEdges reg).filter
    (fun e => (nodeIds reg).contains e.source && (nodeIds reg).contains e.target)

/-- Field `compiledChain.actualEntryPoint`: present exactly when the (truthy)
entry point id names a registered entry with preprocessing. -/
def actualEntryPointField (c : Chain) : Option String :=
  if strTruthy c.entryPointId then
    match c.entryPointId with
    | some ep =>
        match regGet c.registry ep with
        | some e => if e.preprocessing.isSome then some (ep ++ "_preprocessing") else none
        | none => none
    | none => none
  else none

/-- Helper `getTaskTypeDistribution`: a count per runtime over registry entries
that carry a task (embedded as a function from runtime to count; the
source uses a string-keyed record). -/
def getTaskTypeDistribution (reg : List ChainRegistryEntry) : TaskEnvironment → Nat :=
  reg.foldl
    (fun dist e =>
      match e.task with
      | some t => fun env => if env = t.env then dist env + 1 else dist env
      | none => dist)
    (fun _ => 0)

/-- The `statistics` block of the compiled document. -/
structure Statistics where
  totalNodes : Nat
  totalEdges : Nat
  hasEntryPoint : Bool
  taskTypes : TaskEnvironment → Nat

/-- The compiled document returned by `Chain.compile`. -/
structure CompiledChain where
  id : String
  name : String
  entryPoint : Option String
  nodes : List Node
  edges : List Edge
  actualEntryPoint : Option String
  statistics : Statistics

/-- Method `Chain.compile` (without the optional function-materialization
pre-step, which mutates the registry before this algorithm runs and is an
external collaborator in the spec). -/
def compile (c : Chain) : CompiledChain :=
  { id := c.id
    name := match c.name with
      | some n => if n = "" then c.id else n
      | none => c.id
    entryPoint := c.entryPointId
    nodes := compiledNodes c.registry
    edges := compiledEdges c.registry
    actualEntryPoint := actualEntryPointField c
    statistics :=
      { totalNodes := (compiledNodes c.registry).length
        totalEdges := (compiledEdges c.registry).length
        hasEntryPoint := strTruthy c.entryPointId
        taskTypes := getTaskTypeDistribution c.registry } }


/-- Well-formedness of user-chosen entry ids: no entry id collides with the
synthesized `_preprocessing`/`_postprocessing` node id of an entry that
declares the corresponding step.  (Entry ids are arbitrary caller-supplied
strings; nothing in the source prevents such collisions.) -/
def SaneIds (reg : List ChainRegistryEntry) : Prop :=
  ∀ e1 ∈ reg, ∀ e2 ∈ reg,
    (e2.preprocessing.isSome = true → e1.id ≠ e2.id ++ "_preprocessing") ∧
    (e2.postprocessing.isSome = true → e1.id ≠ e2.id ++ "_postprocessing")

instance (reg : List ChainRegistryEntry) : Decidable (SaneIds reg) := by
  unfold SaneIds; infer_instance

/-- Modelled from the spec: CPU normalization (`normalizeCpu`).  The
implementation file of the resource-normalizing `Task` constructor is not
among the provided sources (only its unit tests are); the spec states that
an absent request yields the minimum unit 0.25 and a present request is
rounded up to the nearest 0.25 multiple and clamped to a floor of 0.25. -/
def normalizeCpu : Option ℚ → ℚ
  | none => 1/4
  | some r =>
      let rounded : ℚ := (⌈r * 4⌉ : ℤ) / 4
      if rounded < 1/4 then 1/4 else rounded

/-- Digits of a decimal numeral folded to a natural number. -/
def natOfDigits (cs : List Char) : ℕ :=
  cs.foldl (fun n ch => 10 * n + (ch.toNat - 48)) 0

/-- Modelled from the spec: the numeric part of a memory request, a
nonnegative decimal numeral `<digits>` or `<digits>.<digits>` (a sign or
any other character is rejected).  The exact value is returned as a
numerator/denominator pair `(w·10^k + f, 10^k)` of naturals. -/
def parseDecimal (cs : List Char) : Option (ℕ × ℕ) :=
  match cs.splitOn '.' with
  | [w] =>
      if w ≠ [] ∧ w.all Char.isDigit then some (natOfDigits w, 1) else none
  | [w, f] =>
      if w ≠ [] ∧ f ≠ [] ∧ w.all Char.isDigit ∧ f.all Char.isDigit then
        some (natOfDigits w * 10 ^ f.length + natOfDigits f, 10 ^ f.length)
      else none
  | _ => none

/-- Modelled from the spec: the MiB multiplier of a case-insensitive
memory unit, `mb`, `gb` or `tb`. -/
def unitFactor (c1 c2 : Char) : Option ℕ :=
  if (c1 = 'm' ∨ c1 = 'M') ∧ (c2 = 'b' ∨ c2 = 'B') then some 1
  else if (c1 = 'g' ∨ c1 = 'G') ∧ (c2 = 'b' ∨ c2 = 'B') then some 1024
  else if (c1 = 't' ∨ c1 = 'T') ∧ (c2 = 'b' ∨ c2 = 'B') then some (1024 * 1024)
  else none

/-- Modelled from the spec: parse a memory request `<number><unit>` into
its MiB equivalent, as an exact numerator/denominator pair; any string
failing the exact pattern yields `none`. -/
def parseMemoryParts (s : String) : Option (ℕ × ℕ) :=
  match s.data.reverse with
  | c2 :: c1 :: rest =>
      match unitFactor c1 c2 with
      | some factor => (parseDecimal rest.reverse).map (fun p => (p.1 * factor, p.2))
      | none => none
  | _ => none

/-- The MiB equivalent of a parsed memory request as a rational. -/
def parseMemory (s : String) : Option ℚ :=
  (parseMemoryParts s).map (fun p => (p.1 : ℚ) / (p.2 : ℚ))

/-- Modelled from the spec: memory normalization in MiB — a parsed request
is rounded up to the next multiple of 256 MiB with a floor of 256 MiB; an
unparsable request falls back to the 256 MiB minimum.  The rounding
`256 * ⌈v / 256⌉` is computed on the exact fraction `v = num / den` as the
natural ceiling division `(num + den·256 - 1) / (den·256)`. -/
def normalizeMemoryMiB (s : String) : ℕ :=
  match parseMemoryParts s with
  | none => 256
  | some (num, den) => max 256 (256 * ((num + den * 256 - 1) / (den * 256)))

/-- Modelled from the spec: the normalized memory string, always rendered
in MB (as the repository's tests expect, e.g. `'512mb'`). -/
def normalizeMemory (s : String) : String :=
  toString (normalizeMemoryMiB s) ++ "mb"

/-- Outcome of the spawned Python process observed by the `exec` callback
in `Task.runPythonTask` (`src/models/task.ts`): the reported error message
if the process failed to run or exited non-zero, the captured standard
error text, and the contents of the temporary output file if it exists. -/
structure PyProcOutcome where
  execError : Option String
  stderr : String
  outputFile : Option String
deriving DecidableEq, Repr

/-- Settlement of the promise returned by `Task.runPythonTask`: the four
mutually exclusive outcomes of the `exec` callback, each rejection tagged
with its message template from the source. -/
inductive PyRunResult
  /-- Rejection with message starting with prefix &quot;Error executing Python task&quot; -/
  | execFailure (detail : String)
  /-- Rejection with message starting with prefix &quot;Error in Python task&quot; -/
  | stderrFailure (detail : String)
  /-- Rejection with message &quot;Python task did not produce an output file&quot; -/
  | missingOutput
  /-- Resolution with the parsed output file contents -/
  | success (output : String)
deriving DecidableEq, Repr

/-- Decision logic of the `exec` callback in `Task.runPythonTask`: a
reported exec error rejects with the captured stderr (or the error message
when stderr is empty); otherwise any nonempty stderr rejects; otherwise a
missing output file rejects; otherwise the output is resolved. -/
def runPythonResult (o : PyProcOutcome) : PyRunResult :=
  match o.execError with
  | some msg => .execFailure (if o.stderr = "" then msg else o.stderr)
  | none =>
      if o.stderr ≠ "" then .stderrFailure o.stderr
      else
        match o.outputFile with
        | none => .missingOutput
        | some out => .success out

/-- Counterexample registry for the pathological id-collision case: entry
`x` declares postprocessing and targets `b`; a second entry is named
`x_postprocessing`, colliding with the synthesized postprocessing node id
of `x`; entry `b` declares preprocessing. -/
def cexChain1 : Chain :=
  { id := "c1", registry :=
      [ { id := "x", postprocessing := some .func, targets := ["b"] },
        { id := "x_postprocessing", targets := ["b"] },
        { id := "b", preprocessing := some .func } ] }

/-- Counterexample registry: entry `b` declares preprocessing, and a
second entry is named `b_preprocessing` (colliding with the synthesized
preprocessing node id of `b`), declares postprocessing and targets `b`. -/
def cexChain2 : Chain :=
  { id := "c2", registry :=
      [ { id := "b", preprocessing := some .func },
        { id := "b_preprocessing", postprocessing := some .func, targets := ["b"] } ] }

/-- Counterexample registry (no id collisions): entry `x` declares
postprocessing and targets `b`; entry `b` declares preprocessing. -/
def cexChain3 : Chain :=
  { id := "c3", registry :=
      [ { id := "x", postprocessing := some .func, targets := ["b"] },
        { id := "b", preprocessing := some .func } ] }

/-- Counterexample registry: the entry point is the registered entry whose
id is the empty string and which declares preprocessing (JavaScript treats
the empty string as falsy in `if (this.entryPointId)`). -/
def cexChain5 : Chain :=
  { id := "c5", registry := [ { id := "", preprocessing := some .func } ],
    entryPointId := some "" }

/-- Example entry `a`, targeting `b` and `d`. -/
def exEntryA : ChainRegistryEntry := { id := "a", targets := ["b", "d"] }

/-- Example entry `b`, with a preprocessing step. -/
def exEntryB : ChainRegistryEntry := { id := "b", preprocessing := some .func }

/-- Example entry `d`, with no processing steps. -/
def exEntryD : ChainRegistryEntry := { id := "d" }

/-- Example chain used to witness the direct-edge rules. -/
def exChainA : Chain := { id := "wa", registry := [exEntryA, exEntryB, exEntryD] }

/-- Example entry `e`, with a postprocessing step and two targets. -/
def exEntryE : ChainRegistryEntry :=
  { id := "e", postprocessing := some .func, targets := ["x", "y"] }

/-- Example entry `x`. -/
def exEntryX : ChainRegistryEntry := { id := "x" }

/-- Example entry `y`. -/
def exEntryY : ChainRegistryEntry := { id := "y" }

/-- Example chain used to witness the postprocessing fan-out rules. -/
def exChainB : Chain := { id := "wb", registry := [exEntryE, exEntryX, exEntryY] }

/-- Example chain used to witness the preprocessing-entry guard. -/
def exChainC : Chain :=
  { id := "wc", registry :=
      [ { id := "a", targets := ["b"] },
        { id := "b", preprocessing := some .func } ] }

/-- Example chain used to witness node-id distinctness. -/
def exChainD : Chain :=
  { id := "wd", registry :=
      [ { id := "a", preprocessing := some .func, postprocessing := some .func,
          targets := ["b"] },
        { id := "b", preprocessing := some .func } ] }

/-! ## Helper lemmas: strings -/

theorem strAppend_cancel {a b s : String} (h : a ++ s = b ++ s) : a = b := by
  apply String.ext
  have hd : a.data ++ s.data = b.data ++ s.data := by
    have h2 := congrArg String.data h
    rwa [String.data_append, String.data_append] at h2
  exact List.append_cancel_right hd

theorem preSuffix_ne_postSuffix (a b : String) :
    a ++ "_preprocessing" ≠ b ++ "_postprocessing" := by
  intro h
  have hd := congrArg String.data h
  rw [String.data_append, String.data_append] at hd
  have h1 : "_preprocessing".data <:+ b.data ++ "_postprocessing".data := by
    rw [← hd]; exact List.suffix_append a.data _
  have h2 : "_postprocessing".data <:+ b.data ++ "_postprocessing".data :=
    List.suffix_append b.data _
  rcases List.suffix_or_suffix_of_suffix h1 h2 with h3 | h3
  · exact absurd h3 (by decide)
  · exact absurd h3 (by decide)

/-! ## Helper lemmas: registry lookup -/

theorem regGet_mem {reg : List ChainRegistryEntry} {i : String} {e : ChainRegistryEntry}
    (h : regGet reg i = some e) : e ∈ reg ∧ e.id = i := by
  refine ⟨List.mem_of_find?_eq_some h, ?_⟩
  have h2 := List.find?_some h
  simpa using h2

theorem regGet_of_mem {reg : List ChainRegistryEntry} {e : ChainRegistryEntry}
    (hN : (reg.map ChainRegistryEntry.id).Nodup) (hE : e ∈ reg) :
    regGet reg e.id = some e := by
  induction reg with
  | nil => cases hE
  | cons a tl ih =>
      rcases List.mem_cons.mp hE with rfl | htl
      · simp [regGet, List.find?]
      · have hN2 := hN
        rw [List.map_cons, List.nodup_cons] at hN2
        by_cases hid : a.id = e.id
        · exact absurd (hid ▸ List.mem_map_of_mem ChainRegistryEntry.id htl) hN2.1
        · have : (a.id == e.id) = false := beq_false_of_ne hid
          simp only [regGet, List.find?, this]
          exact ih hN2.2 htl

theorem entry_eq_of_id_eq {reg : List ChainRegistryEntry} {e1 e2 : ChainRegistryEntry}
    (hN : (reg.map ChainRegistryEntry.id).Nodup) (h1 : e1 ∈ reg) (h2 : e2 ∈ reg)
    (h : e1.id = e2.id) : e1 = e2 := by
  have g1 := regGet_of_mem hN h1
  have g2 := regGet_of_mem hN h2
  rw [h, g2] at g1
  exact (Option.some_inj.mp g1).symm

/-! ## Helper lemmas: membership characterizations -/

theorem mem_collectProcessing {e : ChainRegistryEntry} {p : ProcessingNode} :
    p ∈ collectProcessing e ↔
      (∃ v, e.preprocessing = some v ∧ p = procOfValue e.id .preprocessing v) ∨
      (∃ v, e.postprocessing = some v ∧ p = procOfValue e.id .postprocessing v) := by
  unfold collectProcessing
  rcases hpre : e.preprocessing with _ | v1 <;> rcases hpost : e.postprocessing with _ | v2 <;>
    simp [eq_comm]

theorem procOfValue_id (entryId : String) (k : ProcKind) (v : ProcValue) :
    (procOfValue entryId k v).id = entryId ++ procSuffix k := by
  cases v <;> rfl

theorem procOfValue_parentId (entryId : String) (k : ProcKind) (v : ProcValue) :
    (procOfValue entryId k v).parentId = entryId := by
  cases v <;> rfl

theorem procOfValue_kind (entryId : String) (k : ProcKind) (v : ProcValue) :
    (procOfValue entryId k v).kind = k := by
  cases v <;> rfl

theorem mem_processingNodes {reg : List ChainRegistryEntry} {p : ProcessingNode} :
    p ∈ processingNodes reg ↔ ∃ e ∈ reg, p ∈ collectProcessing e := by
  unfold processingNodes
  exact List.mem_flatMap

theorem nodeIds_eq (reg : List ChainRegistryEntry) :
    nodeIds reg =
      reg.map ChainRegistryEntry.id ++ (processingNodes reg).map ProcessingNode.id := by
  unfold nodeIds compiledNodes
  rw [List.map_append, List.map_map, List.map_map]
  rfl

theorem mem_nodeIds {reg : List ChainRegistryEntry} {x : String} :
    x ∈ nodeIds reg ↔
      (∃ e ∈ reg, x = e.id) ∨
      (∃ e ∈ reg,
        (e.preprocessing.isSome = true ∧ x = e.id ++ "_preprocessing") ∨
        (e.postprocessing.isSome = true ∧ x = e.id ++ "_postprocessing")) := by
  rw [nodeIds_eq, List.mem_append, List.mem_map]
  constructor
  · rintro (⟨e, he, rfl⟩ | hproc)
    · exact Or.inl ⟨e, he, rfl⟩
    · rcases List.mem_map.mp hproc with ⟨p, hp, rfl⟩
      rcases mem_processingNodes.mp hp with ⟨e, he, hpe⟩
      rcases mem_collectProcessing.mp hpe with ⟨v, hv, rfl⟩ | ⟨v, hv, rfl⟩
      · exact Or.inr ⟨e, he, Or.inl ⟨by simp [hv], procOfValue_id _ _ _⟩⟩
      · exact Or.inr ⟨e, he, Or.inr ⟨by simp [hv], procOfValue_id _ _ _⟩⟩
  · rintro (⟨e, he, rfl⟩ | ⟨e, he, ⟨hpre, rfl⟩ | ⟨hpost, rfl⟩⟩)
    · exact Or.inl ⟨e, he, rfl⟩
    · rcases Option.isSome_iff_exists.mp hpre with ⟨v, hv⟩
      refine Or.inr (List.mem_map.mpr ⟨procOfValue e.id .preprocessing v, ?_, procOfValue_id _ _ _⟩)
      exact mem_processingNodes.mpr ⟨e, he, mem_collectProcessing.mpr (Or.inl ⟨v, hv, rfl⟩)⟩
    · rcases Option.isSome_iff_exists.mp hpost with ⟨v, hv⟩
      refine Or.inr (List.mem_map.mpr ⟨procOfValue e.id .postprocessing v, ?_, procOfValue_id _ _ _⟩)
      exact mem_processingNodes.mpr ⟨e, he, mem_collectProcessing.mpr (Or.inr ⟨v, hv, rfl⟩)⟩

theorem processingEdges_pre {reg : List ChainRegistryEntry} {p : ProcessingNode}
    (h : p.kind = ProcKind.preprocessing) :
    processingEdges reg p = [⟨p.id, p.parentId⟩] := by
  unfold processingEdges
  rw [h]

theorem processingEdges_post {reg : List ChainRegistryEntry} {p : ProcessingNode}
    (h : p.kind = ProcKind.postprocessing) :
    processingEdges reg p =
      ⟨p.parentId, p.id⟩ ::
      (match regGet reg p.parentId with
        | some entry => entry.targets.map (fun t => ⟨p.id, t⟩)
        | none => []) := by
  unfold processingEdges
  rw [h]

theorem mem_allEdges {reg : List ChainRegistryEntry} {e : Edge} :
    e ∈ allEdges reg ↔
      (∃ E ∈ reg, E.preprocessing.isSome = true ∧
        e = ⟨E.id ++ "_preprocessing", E.id⟩) ∨
      (∃ E ∈ reg, E.postprocessing.isSome = true ∧
        e = ⟨E.id, E.id ++ "_postprocessing"⟩) ∨
      (∃ E ∈ reg, E.postprocessing.isSome = true ∧
        ∃ entry, regGet reg E.id = some entry ∧
          ∃ t ∈ entry.targets, e = ⟨E.id ++ "_postprocessing", t⟩) ∨
      (∃ A ∈ reg, A.postprocessing = none ∧
        ∃ t ∈ A.targets, e = directTargetEdge reg A.id t) := by
  unfold allEdges
  rw [List.mem_append]
  constructor
  · rintro (hproc | hdir)
    · rcases List.mem_flatMap.mp hproc with ⟨p, hp, hep⟩
      rcases mem_processingNodes.mp hp with ⟨E, hE, hpE⟩
      rcases mem_collectProcessing.mp hpE with ⟨v, hv, rfl⟩ | ⟨v, hv, rfl⟩
      · rw [processingEdges_pre (procOfValue_kind _ _ _)] at hep
        rcases List.mem_singleton.mp hep with rfl
        exact Or.inl ⟨E, hE, by simp [hv],
          by rw [procOfValue_id, procOfValue_parentId]; rfl⟩
      · rw [processingEdges_post (procOfValue_kind _ _ _)] at hep
        rw [procOfValue_id, procOfValue_parentId] at hep
        rcases List.mem_cons.mp hep with rfl | htail
        · exact Or.inr (Or.inl ⟨E, hE, by simp [hv], rfl⟩)
        · rcases hget : regGet reg E.id with _ | entry
          · rw [hget] at htail; cases htail
          · rw [hget] at htail
            rcases List.mem_map.mp htail with ⟨t, ht, rfl⟩
            exact Or.inr (Or.inr (Or.inl ⟨E, hE, by simp [hv], entry, hget, t, ht, rfl⟩))
    · rcases List.mem_flatMap.mp hdir with ⟨A, hA, heA⟩
      unfold directEdges at heA
      by_cases hpost : A.postprocessing.isSome
      · rw [if_pos hpost] at heA; cases heA
      · rw [if_neg hpost] at heA
        rcases List.mem_map.mp heA with ⟨t, ht, rfl⟩
        exact Or.inr (Or.inr (Or.inr ⟨A, hA, Option.not_isSome_iff_eq_none.mp hpost, t, ht, rfl⟩))
  · rintro (⟨E, hE, hpre, rfl⟩ | ⟨E, hE, hpost, rfl⟩ |
      ⟨E, hE, hpost, entry, hget, t, ht, rfl⟩ | ⟨A, hA, hpost, t, ht, rfl⟩)
    · rcases Option.isSome_iff_exists.mp hpre with ⟨v, hv⟩
      refine Or.inl (List.mem_flatMap.mpr ⟨procOfValue E.id .preprocessing v, ?_, ?_⟩)
      · exact mem_processingNodes.mpr ⟨E, hE, mem_collectProcessing.mpr (Or.inl ⟨v, hv, rfl⟩)⟩
      · rw [processingEdges_pre (procOfValue_kind _ _ _), procOfValue_id, procOfValue_parentId]
        exact List.mem_singleton.mpr rfl
    · rcases Option.isSome_iff_exists.mp hpost with ⟨v, hv⟩
      refine Or.inl (List.mem_flatMap.mpr ⟨procOfValue E.id .postprocessing v, ?_, ?_⟩)
      · exact mem_processingNodes.mpr ⟨E, hE, mem_collectProcessing.mpr (Or.inr ⟨v, hv, rfl⟩)⟩
      · rw [processingEdges_post (procOfValue_kind _ _ _), procOfValue_id, procOfValue_parentId]
        exact List.mem_cons_self _ _
    · rcases Option.isSome_iff_exists.mp hpost with ⟨v, hv⟩
      refine Or.inl (List.mem_flatMap.mpr ⟨procOfValue E.id .postprocessing v, ?_, ?_⟩)
      · exact mem_processingNodes.mpr ⟨E, hE, mem_collectProcessing.mpr (Or.inr ⟨v, hv, rfl⟩)⟩
      · rw [processingEdges_post (procOfValue_kind _ _ _), procOfValue_id, procOfValue_parentId,
          hget]
        exact List.mem_cons_of_mem _ (List.mem_map.mpr ⟨t, ht, rfl⟩)
    · refine Or.inr (List.mem_flatMap.mpr ⟨A, hA, ?_⟩)
      unfold directEdges
      rw [if_neg (by simp [hpost])]
      exact List.mem_map.mpr ⟨t, ht, rfl⟩

theorem mem_compiledEdges {reg : List ChainRegistryEntry} {e : Edge} :
    e ∈ compiledEdges reg ↔
      e ∈ allEdges reg ∧ e.source ∈ nodeIds reg ∧ e.target ∈ nodeIds reg := by
  unfold compiledEdges
  rw [List.mem_filter]
  simp [List.elem_iff]

/-! ## Claim C4 -/

/-- C4: compilation never fails on unregistered targets; an edge belongs to
the compiled document exactly when it was generated and both its source
and target ids are node ids of the compiled graph, so dangling references
are silently filtered out and every output edge references two existing
nodes.  (The embedding of `compile` is a total function: no input raises
an error.) -/
theorem compile_edges_filter_dangling (c : Chain) (e : Edge) :
    e ∈ (compile c).edges ↔
      e ∈ allEdges c.registry ∧
      e.source ∈ (compile c).nodes.map Node.id ∧
      e.target ∈ (compile c).nodes.map Node.id :=
  mem_compiledEdges

/-! ## Claim C5 -/

/-- C5 (amended): `entryPoint` is the chain state's entry point id,
unchanged; `actualEntryPoint` is present and equal to
`<entryPointId>_preprocessing` exactly when a nonempty entry point id is
set and names a registered entry declaring preprocessing.  (The claim
without the nonemptiness condition fails: JavaScript treats the empty
string as falsy in `if (this.entryPointId)`.) -/
theorem compile_actualEntryPoint (c : Chain) :
    (compile c).entryPoint = c.entryPointId ∧
    ∀ s : String,
      ((compile c).actualEntryPoint = some s ↔
        ∃ ep entry, c.entryPointId = some ep ∧ ep ≠ "" ∧
          regGet c.registry ep = some entry ∧ entry.preprocessing.isSome = true ∧
          s = ep ++ "_preprocessing") := by
  refine ⟨rfl, fun s => ?_⟩
  show actualEntryPointField c = some s ↔ _
  rcases hepid : c.entryPointId with _ | ep
  · simp [actualEntryPointField, strTruthy, hepid]
  · by_cases hep : ep = ""
    · subst hep
      simp [actualEntryPointField, strTruthy, hepid]
    · rcases hget : regGet c.registry ep with _ | entry
      · simp [actualEntryPointField, strTruthy, hepid, hep, hget]
      · by_cases hpre : entry.preprocessing.isSome
        · have hval : actualEntryPointField c = some (ep ++ "_preprocessing") := by
            simp [actualEntryPointField, strTruthy, hepid, hep, hget, hpre]
          rw [hval]
          constructor
          · intro h
            exact ⟨ep, entry, rfl, hep, hget, hpre, (Option.some_inj.mp h).symm⟩
          · rintro ⟨ep2, e2, hepid2, hep2, hget2, hpre2, rfl⟩
            obtain rfl := (Option.some_inj.mp hepid2).symm
            rfl
        · simp [actualEntryPointField, strTruthy, hepid, hep, hget, hpre]

/-- C5 counterexample to the unamended claim: an entry with the empty
string as id is registered, declares preprocessing and is the set entry
point, yet the compiled document carries no `actualEntryPoint`. -/
theorem compile_actualEntryPoint_empty_id_cex :
    cexChain5.entryPointId = some "" ∧
    (∃ entry, regGet cexChain5.registry "" = some entry ∧
      entry.preprocessing.isSome = true) ∧
    (compile cexChain5).actualEntryPoint = none := by decide

/-! ## Claim C3 -/

/-- C3 (amended): in a compiled graph over a registry with distinct entry
ids none of which collides with a synthesized processing node id, every
edge that targets the primary node of an entry declaring preprocessing has
as its source either that entry's own preprocessing node, or the
postprocessing node of an entry that declares the target among its
targets.  (The unamended invariant — preprocessing node sources only —
fails because postprocessing fan-out edges go directly to targets.) -/
theorem edges_into_preprocessing_entries (c : Chain)
    (hN : (c.registry.map ChainRegistryEntry.id).Nodup)
    (hS : SaneIds c.registry) :
    ∀ e ∈ (compile c).edges, ∀ B ∈ c.registry,
      B.preprocessing.isSome = true → e.target = B.id →
      e.source = B.id ++ "_preprocessing" ∨
      ∃ X ∈ c.registry, X.postprocessing.isSome = true ∧
        e.source = X.id ++ "_postprocessing" ∧ B.id ∈ X.targets := by
  intro e he B hB hBpre htgt
  have hall := (mem_compiledEdges.mp he).1
  rcases mem_allEdges.mp hall with
    ⟨E, hE, hpre, rfl⟩ | ⟨E, hE, hpost, rfl⟩ | ⟨E, hE, hpost, entry, hget, t, ht, rfl⟩ |
    ⟨A, hA, hApost, t, ht, rfl⟩
  · left
    have hid : E.id = B.id := htgt
    rw [hid]
  · exfalso
    have hBE : B.id ≠ E.id ++ "_postprocessing" := (hS B hB E hE).2 hpost
    exact hBE ((show E.id ++ "_postprocessing" = B.id from htgt).symm)
  · right
    have hEget := regGet_of_mem hN hE
    rw [hEget] at hget
    obtain rfl := Option.some_inj.mp hget
    have hid : t = B.id := htgt
    exact ⟨E, hE, hpost, rfl, hid ▸ ht⟩
  · exfalso
    unfold directTargetEdge at htgt
    rcases hget : regGet c.registry t with _ | tn
    · simp only [hget] at htgt
      have hid : t = B.id := htgt
      rw [hid, regGet_of_mem hN hB] at hget
      cases hget
    · simp only [hget] at htgt
      by_cases htn : tn.preprocessing.isSome
      · rw [if_pos htn] at htgt
        have hid : t ++ "_preprocessing" = B.id := htgt
        have htn_mem := (regGet_mem hget).1
        have htn_id := (regGet_mem hget).2
        exact (hS B hB tn htn_mem).1 htn (by rw [← hid, htn_id])
      · rw [if_neg htn] at htgt
        have hid : t = B.id := htgt
        rw [hid, regGet_of_mem hN hB] at hget
        obtain rfl := Option.some_inj.mp hget
        rw [hBpre] at htn
        exact htn rfl

/-- C3 counterexample to the unamended claim, with no id collisions: entry
`x` declares postprocessing and targets `b`; entry `b` declares
preprocessing; the compiled graph contains the fan-out edge
`x_postprocessing → b`, entering `b` other than through
`b_preprocessing`. -/
theorem edges_into_preprocessing_entries_cex :
    (∃ B ∈ cexChain3.registry, B.id = "b" ∧ B.preprocessing.isSome = true) ∧
    Edge.mk "x_postprocessing" "b" ∈ (compile cexChain3).edges ∧
    "x_postprocessing" ≠ "b_preprocessing" := by decide

/-- Witness for the amended C3 theorem at a concrete chain: the compiled
edge `b_preprocessing → b` of `exChainC` satisfies the guard disjunction. -/
theorem edges_into_preprocessing_entries_witness :
    (Edge.mk "b_preprocessing" "b").source = "b" ++ "_preprocessing" ∨
    ∃ X ∈ exChainC.registry, X.postprocessing.isSome = true ∧
      (Edge.mk "b_preprocessing" "b").source = X.id ++ "_postprocessing" ∧
      "b" ∈ X.targets :=
  edges_into_preprocessing_entries exChainC (by decide) (by decide)
    (Edge.mk "b_preprocessing" "b") (by decide)
    { id := "b", preprocessing := some .func } (by decide) (by decide) rfl

/-! ## Claim C1 -/

/-- C1 (amended): over a registry with distinct entry ids none of which
collides with a synthesized processing node id, for an entry `A` without
postprocessing and a registered target `B` of `A`: if `B` declares
preprocessing the compiled graph contains `A → B_preprocessing` and no
direct `A → B`; if `B` declares no preprocessing it contains the direct
`A → B`.  (Without the id-collision proviso the no-direct-edge part fails:
an entry literally named `<e>_postprocessing` aliases the postprocessing
node of `e`, whose fan-out edges then read as direct edges.) -/
theorem direct_edges_respect_target_preprocessing (c : Chain)
    (hN : (c.registry.map ChainRegistryEntry.id).Nodup)
    (hS : SaneIds c.registry)
    (A B : ChainRegistryEntry) (hA : A ∈ c.registry) (hB : B ∈ c.registry)
    (hApost : A.postprocessing = none) (hT : B.id ∈ A.targets) :
    (B.preprocessing.isSome = true →
      Edge.mk A.id (B.id ++ "_preprocessing") ∈ (compile c).edges ∧
      Edge.mk A.id B.id ∉ (compile c).edges) ∧
    (B.preprocessing = none →
      Edge.mk A.id B.id ∈ (compile c).edges) := by
  constructor
  · intro hBpre
    constructor
    · apply mem_compiledEdges.mpr
      refine ⟨?_, mem_nodeIds.mpr (Or.inl ⟨A, hA, rfl⟩),
        mem_nodeIds.mpr (Or.inr ⟨B, hB, Or.inl ⟨hBpre, rfl⟩⟩)⟩
      apply mem_allEdges.mpr
      refine Or.inr (Or.inr (Or.inr ⟨A, hA, hApost, B.id, hT, ?_⟩))
      unfold directTargetEdge
      rw [regGet_of_mem hN hB]
      dsimp only
      rw [if_pos hBpre]
    · intro hmem
      have hall := (mem_compiledEdges.mp hmem).1
      rcases mem_allEdges.mp hall with
        ⟨E, hE, hpre, heq⟩ | ⟨E, hE, hpost, heq⟩ | ⟨E, hE, hpost, entry, hget, t, ht, heq⟩ |
        ⟨A2, hA2, hA2post, t, ht, heq⟩
      · have h1 : A.id = E.id ++ "_preprocessing" := congrArg Edge.source heq
        exact (hS A hA E hE).1 hpre h1
      · have h2 : B.id = E.id ++ "_postprocessing" := congrArg Edge.target heq
        exact (hS B hB E hE).2 hpost h2
      · have h1 : A.id = E.id ++ "_postprocessing" := congrArg Edge.source heq
        exact (hS A hA E hE).2 hpost h1
      · unfold directTargetEdge at heq
        rcases hget : regGet c.registry t with _ | tn
        · simp only [hget] at heq
          have h2 : B.id = t := congrArg Edge.target heq
          rw [← h2, regGet_of_mem hN hB] at hget
          cases hget
        · simp only [hget] at heq
          by_cases htn : tn.preprocessing.isSome
          · rw [if_pos htn] at heq
            have h2 : B.id = t ++ "_preprocessing" := congrArg Edge.target heq
            exact (hS B hB tn (regGet_mem hget).1).1 htn (by rw [h2, (regGet_mem hget).2])
          · rw [if_neg htn] at heq
            have h2 : B.id = t := congrArg Edge.target heq
            rw [← h2, regGet_of_mem hN hB] at hget
            obtain rfl := Option.some_inj.mp hget
            rw [hBpre] at htn
            exact htn rfl
  · intro hBnone
    apply mem_compiledEdges.mpr
    refine ⟨?_, mem_nodeIds.mpr (Or.inl ⟨A, hA, rfl⟩),
      mem_nodeIds.mpr (Or.inl ⟨B, hB, rfl⟩)⟩
    apply mem_allEdges.mpr
    refine Or.inr (Or.inr (Or.inr ⟨A, hA, hApost, B.id, hT, ?_⟩))
    unfold directTargetEdge
    rw [regGet_of_mem hN hB]
    dsimp only
    rw [if_neg (by simp [hBnone])]

/-- C1 counterexample to the unamended claim: in `cexChain1` the entry
named `x_postprocessing` (no postprocessing, targets `b`) and the
registered target `b` (with preprocessing) satisfy the claim's
hypotheses, yet the compiled graph contains the direct edge
`x_postprocessing → b` (it is the fan-out edge of entry `x`). -/
theorem direct_edges_respect_target_preprocessing_cex :
    (∃ A ∈ cexChain1.registry, A.id = "x_postprocessing" ∧ A.postprocessing = none ∧
      "b" ∈ A.targets) ∧
    (∃ B ∈ cexChain1.registry, B.id = "b" ∧ B.preprocessing.isSome = true) ∧
    Edge.mk "x_postprocessing" "b" ∈ (compile cexChain1).edges := by decide

/-- Witness for the amended C1 theorem at a concrete chain. -/
theorem direct_edges_respect_target_preprocessing_witness :
    Edge.mk "a" ("b" ++ "_preprocessing") ∈ (compile exChainA).edges ∧
    Edge.mk "a" "b" ∉ (compile exChainA).edges :=
  (direct_edges_respect_target_preprocessing exChainA (by decide) (by decide)
    exEntryA exEntryB (by decide) (by decide) (by decide) (by decide)).1 (by decide)

/-! ## Helper lemmas: counting and node-id distinctness -/

theorem count_flatMap {α β : Type} [DecidableEq β] (l : List α) (f : α → List β) (b : β) :
    (l.flatMap f).count b = (l.map (fun a => (f a).count b)).sum := by
  induction l with
  | nil => rfl
  | cons x tl ih =>
      rw [List.flatMap_cons, List.count_append, List.map_cons, List.sum_cons, ih]

theorem sum_map_single {α : Type} [DecidableEq α] (l : List α) (f : α → ℕ) (a : α)
    (h : ∀ b ∈ l, f b = if b = a then 1 else 0) : (l.map f).sum = l.count a := by
  induction l with
  | nil => rfl
  | cons x tl ih =>
      rw [List.map_cons, List.sum_cons, ih (fun b hb => h b (List.mem_cons_of_mem _ hb)),
        List.count_cons, h x (List.mem_cons_self _ _)]
      by_cases hx : x = a
      · simp [hx, Nat.add_comm]
      · simp [hx]

theorem directTargetEdge_source (reg : List ChainRegistryEntry) (sId tId : String) :
    (directTargetEdge reg sId tId).source = sId := by
  unfold directTargetEdge
  split
  · split <;> rfl
  · rfl

theorem processingNodes_map_id (reg : List ChainRegistryEntry) :
    (processingNodes reg).map ProcessingNode.id =
      reg.flatMap (fun e =>
        (if e.preprocessing.isSome = true then [e.id ++ "_preprocessing"] else []) ++
        (if e.postprocessing.isSome = true then [e.id ++ "_postprocessing"] else [])) := by
  unfold processingNodes
  rw [List.map_flatMap]
  congr 1
  funext e
  unfold collectProcessing
  rcases e.preprocessing with _ | v1 <;> rcases e.postprocessing with _ | v2 <;>
    simp [procOfValue_id, procSuffix]

theorem mem_procIdContrib {e : ChainRegistryEntry} {x : String} :
    x ∈ ((if e.preprocessing.isSome = true then [e.id ++ "_preprocessing"] else []) ++
         (if e.postprocessing.isSome = true then [e.id ++ "_postprocessing"] else [])) ↔
      (e.preprocessing.isSome = true ∧ x = e.id ++ "_preprocessing") ∨
      (e.postprocessing.isSome = true ∧ x = e.id ++ "_postprocessing") := by
  rw [List.mem_append]
  by_cases h1 : e.preprocessing.isSome = true <;>
    by_cases h2 : e.postprocessing.isSome = true <;> simp [h1, h2]

theorem mem_procIds {reg : List ChainRegistryEntry} {x : String} :
    x ∈ (processingNodes reg).map ProcessingNode.id ↔
      ∃ e ∈ reg, (e.preprocessing.isSome = true ∧ x = e.id ++ "_preprocessing") ∨
        (e.postprocessing.isSome = true ∧ x = e.id ++ "_postprocessing") := by
  rw [processingNodes_map_id, List.mem_flatMap]
  constructor
  · rintro ⟨e, he, hx⟩
    exact ⟨e, he, mem_procIdContrib.mp hx⟩
  · rintro ⟨e, he, h⟩
    exact ⟨e, he, mem_procIdContrib.mpr h⟩

theorem procIds_nodup {reg : List ChainRegistryEntry}
    (hN : (reg.map ChainRegistryEntry.id).Nodup) :
    ((processingNodes reg).map ProcessingNode.id).Nodup := by
  rw [processingNodes_map_id]
  induction reg with
  | nil => simp
  | cons a tl ih =>
      rw [List.map_cons, List.nodup_cons] at hN
      rw [List.flatMap_cons, List.nodup_append]
      refine ⟨?_, ih hN.2, ?_⟩
      · by_cases h1 : a.preprocessing.isSome = true <;>
          by_cases h2 : a.postprocessing.isSome = true <;>
          simp [h1, h2, preSuffix_ne_postSuffix]
      · intro x hx1 hx2
        rcases List.mem_flatMap.mp hx2 with ⟨e, he, hxe⟩
        have haid : a.id ≠ e.id := by
          intro h
          exact hN.1 (h ▸ List.mem_map_of_mem ChainRegistryEntry.id he)
        rcases mem_procIdContrib.mp hx1 with ⟨_, rfl⟩ | ⟨_, rfl⟩ <;>
          rcases mem_procIdContrib.mp hxe with ⟨_, heq⟩ | ⟨_, heq⟩
        · exact haid (strAppend_cancel heq)
        · exact preSuffix_ne_postSuffix a.id e.id (heq.symm ▸ rfl) |>.elim
        · exact preSuffix_ne_postSuffix e.id a.id heq.symm
        · exact haid (strAppend_cancel heq)

/-! ## Claim C10 -/

/-- C10: over a registry with distinct entry ids, none of which equals
`<e>_preprocessing` or `<e>_postprocessing` for an entry `<e>` declaring
the corresponding step, the compiled node ids are pairwise distinct, and
they are exactly each entry's own id plus its declared processing node
ids. -/
theorem compiled_node_ids_distinct (c : Chain)
    (hN : (c.registry.map ChainRegistryEntry.id).Nodup)
    (hS : SaneIds c.registry) :
    ((compile c).nodes.map Node.id).Nodup ∧
    ∀ x : String,
      (x ∈ (compile c).nodes.map Node.id ↔
        ∃ e ∈ c.registry, x = e.id ∨
          (e.preprocessing.isSome = true ∧ x = e.id ++ "_preprocessing") ∨
          (e.postprocessing.isSome = true ∧ x = e.id ++ "_postprocessing")) := by
  have hnodes : (compile c).nodes.map Node.id = nodeIds c.registry := rfl
  constructor
  · rw [hnodes, nodeIds_eq, List.nodup_append]
    refine ⟨hN, procIds_nodup hN, ?_⟩
    intro x hx1 hx2
    rcases List.mem_map.mp hx1 with ⟨e1, he1, rfl⟩
    rcases mem_procIds.mp hx2 with ⟨e2, he2, ⟨hp, heq⟩ | ⟨hp, heq⟩⟩
    · exact (hS e1 he1 e2 he2).1 hp heq
    · exact (hS e1 he1 e2 he2).2 hp heq
  · intro x
    rw [hnodes, mem_nodeIds]
    constructor
    · rintro (⟨e, he, h⟩ | ⟨e, he, h⟩)
      · exact ⟨e, he, Or.inl h⟩
      · exact ⟨e, he, Or.inr h⟩
    · rintro ⟨e, he, h | h⟩
      · exact Or.inl ⟨e, he, h⟩
      · exact Or.inr ⟨e, he, h⟩

/-- Witness for the C10 theorem at a concrete chain with preprocessing and
postprocessing nodes. -/
theorem compiled_node_ids_distinct_witness :
    ((compile exChainD).nodes.map Node.id).Nodup :=
  (compiled_node_ids_distinct exChainD (by decide) (by decide)).1

theorem allEdges_count_parent_post (reg : List ChainRegistryEntry)
    (hN : (reg.map ChainRegistryEntry.id).Nodup) (hS : SaneIds reg)
    (E : ChainRegistryEntry) (hE : E ∈ reg) (hEpost : E.postprocessing.isSome = true) :
    (allEdges reg).count (Edge.mk E.id (E.id ++ "_postprocessing")) = 1 := by
  obtain ⟨v, hv⟩ := Option.isSome_iff_exists.mp hEpost
  set x0 := Edge.mk E.id (E.id ++ "_postprocessing") with hx0
  set p0 := procOfValue E.id ProcKind.postprocessing v with hp0
  unfold allEdges
  rw [List.count_append]
  have hdir : (reg.flatMap (directEdges reg)).count x0 = 0 := by
    apply List.count_eq_zero_of_not_mem
    intro hmem
    rcases List.mem_flatMap.mp hmem with ⟨A, hA, hxA⟩
    unfold directEdges at hxA
    by_cases hApost : A.postprocessing.isSome = true
    · rw [if_pos hApost] at hxA
      cases hxA
    · rw [if_neg hApost] at hxA
      rcases List.mem_map.mp hxA with ⟨t, ht, heq⟩
      have hsrc : A.id = E.id := by
        have h2 := congrArg Edge.source heq
        rwa [directTargetEdge_source, hx0] at h2
      obtain rfl := entry_eq_of_id_eq hN hA hE hsrc
      exact hApost hEpost
  rw [hdir, Nat.add_zero, count_flatMap, sum_map_single _ _ p0 ?hper]
  case hper =>
    intro p hp
    rcases mem_processingNodes.mp hp with ⟨e, he, hpe⟩
    rcases mem_collectProcessing.mp hpe with ⟨w, hw, rfl⟩ | ⟨w, hw, rfl⟩
    · have hne : procOfValue e.id ProcKind.preprocessing w ≠ p0 := by
        intro h
        have hk := congrArg ProcessingNode.kind h
        rw [procOfValue_kind, hp0, procOfValue_kind] at hk
        cases hk
      rw [if_neg hne, processingEdges_pre (procOfValue_kind _ _ _),
        procOfValue_id, procOfValue_parentId]
      apply List.count_eq_zero_of_not_mem
      intro hmemx
      have heq := List.mem_singleton.mp hmemx
      have hsrc : E.id = e.id ++ "_preprocessing" := congrArg Edge.source (hx0 ▸ heq)
      exact (hS E hE e he).1 (by simp [hw]) hsrc
    · rw [processingEdges_post (procOfValue_kind _ _ _), procOfValue_id, procOfValue_parentId,
        regGet_of_mem hN he]
      dsimp only
      rw [List.count_cons]
      have hfan :
          ((e.targets.map (fun t => Edge.mk (e.id ++ procSuffix ProcKind.postprocessing) t)).count
            x0) = 0 := by
        apply List.count_eq_zero_of_not_mem
        intro hmemx
        rcases List.mem_map.mp hmemx with ⟨t, ht, heq⟩
        have hsrc : e.id ++ "_postprocessing" = E.id := congrArg Edge.source (hx0 ▸ heq)
        exact (hS E hE e he).2 (by simp [hw]) hsrc.symm
      rw [hfan]
      by_cases heid : e.id = E.id
      · obtain rfl := entry_eq_of_id_eq hN he hE heid
        obtain rfl : w = v := Option.some_inj.mp (hw.symm.trans hv)
        rw [if_pos rfl]
        have hbeq : (Edge.mk e.id (e.id ++ procSuffix ProcKind.postprocessing) == x0) = true := by
          rw [hx0]
          exact beq_self_eq_true _
        rw [hbeq]
        simp
      · have hne : procOfValue e.id ProcKind.postprocessing w ≠ p0 := by
          intro h
          have hid := congrArg ProcessingNode.id h
          rw [procOfValue_id, hp0, procOfValue_id] at hid
          exact heid (strAppend_cancel hid)
        rw [if_neg hne]
        have hbeq : (Edge.mk e.id (e.id ++ procSuffix ProcKind.postprocessing) == x0) = false := by
          apply beq_false_of_ne
          intro h
          exact heid (congrArg Edge.source (hx0 ▸ h))
        rw [hbeq]
        simp
  apply List.count_eq_one_of_mem
  · exact List.Nodup.of_map _ (procIds_nodup hN)
  · exact mem_processingNodes.mpr ⟨E, hE, mem_collectProcessing.mpr (Or.inr ⟨v, hv, rfl⟩)⟩

/-! ## Claim C2 -/

/-- C2 (amended): over a registry with distinct entry ids none of which
collides with a synthesized processing node id, an entry `E` declaring
postprocessing yields exactly one edge `E → E_postprocessing`, an edge
`E_postprocessing → T` for each registered declared target `T`, and no
direct edge `E → T`.  (Without the id-collision proviso the no-direct-edge
part fails: an entry literally named `<b>_preprocessing` aliases the
preprocessing node of `b`, whose incoming-rewire edge then reads as a
direct edge.) -/
theorem postprocessing_fanout (c : Chain)
    (hN : (c.registry.map ChainRegistryEntry.id).Nodup)
    (hS : SaneIds c.registry)
    (E : ChainRegistryEntry) (hE : E ∈ c.registry)
    (hEpost : E.postprocessing.isSome = true)
    (T : String) (hT : T ∈ E.targets)
    (Tentry : ChainRegistryEntry) (hTreg : regGet c.registry T = some Tentry) :
    ((compile c).edges.count (Edge.mk E.id (E.id ++ "_postprocessing")) = 1) ∧
    Edge.mk (E.id ++ "_postprocessing") T ∈ (compile c).edges ∧
    Edge.mk E.id T ∉ (compile c).edges := by
  have hTmem := (regGet_mem hTreg).1
  have hTid := (regGet_mem hTreg).2
  refine ⟨?_, ?_, ?_⟩
  · show (compiledEdges c.registry).count _ = 1
    unfold compiledEdges
    rw [List.count_filter ?hkeep]
    case hkeep =>
      have hsrc : E.id ∈ nodeIds c.registry := mem_nodeIds.mpr (Or.inl ⟨E, hE, rfl⟩)
      have htgt : E.id ++ "_postprocessing" ∈ nodeIds c.registry :=
        mem_nodeIds.mpr (Or.inr ⟨E, hE, Or.inr ⟨hEpost, rfl⟩⟩)
      simp [List.elem_iff, hsrc, htgt]
    exact allEdges_count_parent_post c.registry hN hS E hE hEpost
  · apply mem_compiledEdges.mpr
    refine ⟨?_, mem_nodeIds.mpr (Or.inr ⟨E, hE, Or.inr ⟨hEpost, rfl⟩⟩),
      mem_nodeIds.mpr (Or.inl ⟨Tentry, hTmem, hTid.symm⟩)⟩
    apply mem_allEdges.mpr
    exact Or.inr (Or.inr (Or.inl ⟨E, hE, hEpost, E, regGet_of_mem hN hE, T, hT, rfl⟩))
  · intro hmem
    have hall := (mem_compiledEdges.mp hmem).1
    rcases mem_allEdges.mp hall with
      ⟨P, hP, hpre, heq⟩ | ⟨X, hX, hpost, heq⟩ | ⟨X, hX, hpost, entry, hget, t, ht, heq⟩ |
      ⟨A, hA, hApost, t, ht, heq⟩
    · have h1 : E.id = P.id ++ "_preprocessing" := congrArg Edge.source heq
      exact (hS E hE P hP).1 hpre h1
    · have h2 : T = X.id ++ "_postprocessing" := congrArg Edge.target heq
      exact (hS Tentry hTmem X hX).2 hpost (hTid ▸ h2)
    · have h1 : E.id = X.id ++ "_postprocessing" := congrArg Edge.source heq
      exact (hS E hE X hX).2 hpost h1
    · have h1 : E.id = A.id := by
        have h2 := congrArg Edge.source heq
        rwa [directTargetEdge_source] at h2
      obtain rfl := entry_eq_of_id_eq hN hA hE h1.symm
      rw [hApost] at hEpost
      cases hEpost

/-- C2 counterexample to the unamended claim: in `cexChain2` the entry
named `b_preprocessing` declares postprocessing and targets the registered
entry `b`, yet the compiled graph contains the direct edge
`b_preprocessing → b` (it is the rewire edge of `b`'s preprocessing
node, which shares its id with the entry). -/
theorem postprocessing_fanout_cex :
    (∃ E ∈ cexChain2.registry, E.id = "b_preprocessing" ∧
      E.postprocessing.isSome = true ∧ "b" ∈ E.targets) ∧
    (regGet cexChain2.registry "b").isSome = true ∧
    Edge.mk "b_preprocessing" "b" ∈ (compile cexChain2).edges := by decide

/-- Witness for the amended C2 theorem at a concrete chain. -/
theorem postprocessing_fanout_witness :
    ((compile exChainB).edges.count (Edge.mk "e" ("e" ++ "_postprocessing")) = 1) ∧
    Edge.mk ("e" ++ "_postprocessing") "x" ∈ (compile exChainB).edges ∧
    Edge.mk "e" "x" ∉ (compile exChainB).edges :=
  postprocessing_fanout exChainB (by decide) (by decide) exEntryE (by decide) (by decide)
    "x" (by decide) exEntryX (by decide)

/-! ## Claim C9 -/

theorem getTaskTypeDistribution_eq (reg : List ChainRegistryEntry) (env : TaskEnvironment) :
    getTaskTypeDistribution reg env =
      reg.countP (fun e => e.task.any (fun t => t.env == env)) := by
  have aux : ∀ (l : List ChainRegistryEntry) (acc : TaskEnvironment → ℕ),
      (l.foldl
        (fun dist e =>
          match e.task with
          | some t => fun env2 => if env2 = t.env then dist env2 + 1 else dist env2
          | none => dist) acc) env =
      acc env + l.countP (fun e => e.task.any (fun t => t.env == env)) := by
    intro l
    induction l with
    | nil =>
        intro acc
        simp
    | cons e tl ih =>
        intro acc
        rw [List.foldl_cons, ih, List.countP_cons]
        rcases he : e.task with _ | t
        · simp [he]
        · by_cases henv : t.env = env
          · simp only [he, Option.any_some, henv, beq_self_eq_true, if_pos]
            omega
          · simp only [he, Option.any_some]
            rw [if_neg (fun h => henv h.symm), if_neg (by simp [henv])]
            omega
  unfold getTaskTypeDistribution
  rw [aux]
  simp

theorem compile_nodes_filter_task (c : Chain) (q : Option CTask → Bool) :
    (((compile c).nodes.filter (fun n => n.ntype == NodeType.task && q n.task)).length) =
      c.registry.countP (fun e => q e.task) := by
  show ((compiledNodes c.registry).filter _).length = _
  unfold compiledNodes
  rw [List.filter_append, List.length_append]
  have hproc : (((processingNodes c.registry).map procNode).filter
      (fun n => n.ntype == NodeType.task && q n.task)) = [] := by
    rw [List.filter_eq_nil_iff]
    intro n hn
    rcases List.mem_map.mp hn with ⟨p, hp, rfl⟩
    have hk : (procNode p).ntype ≠ NodeType.task := by
      unfold procNode
      rcases p.kind <;> simp
    simp [hk]
  rw [hproc, List.length_nil, Nat.add_zero, ← List.countP_eq_length_filter, List.countP_map]
  have hfun : ((fun n => n.ntype == NodeType.task && q n.task) ∘ primaryNode) =
      (fun e => q e.task) := by
    funext e
    simp [primaryNode, Function.comp]
  rw [hfun]

theorem countP_env_sum (reg : List ChainRegistryEntry) :
    reg.countP (fun e => e.task.any (fun t => t.env == TaskEnvironment.javascript)) +
    reg.countP (fun e => e.task.any (fun t => t.env == TaskEnvironment.typescript)) +
    reg.countP (fun e => e.task.any (fun t => t.env == TaskEnvironment.python)) +
    reg.countP (fun e => e.task.any (fun t => t.env == TaskEnvironment.unknown)) =
    reg.countP (fun e => e.task.isSome) := by
  induction reg with
  | nil => rfl
  | cons e tl ih =>
      simp only [List.countP_cons]
      rcases he : e.task with _ | t
      · simpa [he] using ih
      · rcases henv : t.env <;> simp [he, henv] <;> omega

/-- C9: the compiled statistics' task-type distribution counts, per
runtime, exactly the primary task nodes carrying a task of that runtime
(never preprocessing or postprocessing nodes), and the counts over all
runtimes sum to the number of primary nodes carrying a task. -/
theorem statistics_task_type_distribution (c : Chain) :
    (∀ env : TaskEnvironment,
      (compile c).statistics.taskTypes env =
        (((compile c).nodes.filter
          (fun n => n.ntype == NodeType.task && n.task.any (fun t => t.env == env))).length)) ∧
    ((compile c).statistics.taskTypes TaskEnvironment.javascript +
      (compile c).statistics.taskTypes TaskEnvironment.typescript +
      (compile c).statistics.taskTypes TaskEnvironment.python +
      (compile c).statistics.taskTypes TaskEnvironment.unknown =
      (((compile c).nodes.filter
        (fun n => n.ntype == NodeType.task && n.task.isSome)).length)) := by
  constructor
  · intro env
    show getTaskTypeDistribution c.registry env = _
    rw [getTaskTypeDistribution_eq, compile_nodes_filter_task]
  · show getTaskTypeDistribution c.registry _ + getTaskTypeDistribution c.registry _ +
      getTaskTypeDistribution c.registry _ + getTaskTypeDistribution c.registry _ = _
    rw [getTaskTypeDistribution_eq, getTaskTypeDistribution_eq, getTaskTypeDistribution_eq,
      getTaskTypeDistribution_eq, compile_nodes_filter_task, countP_env_sum]

/-! ## Claim C6 -/

theorem normalizeCpu_some (r : ℚ) :
    normalizeCpu (some r) = max (1/4 : ℚ) ((⌈r * 4⌉ : ℚ) / 4) := by
  rw [normalizeCpu]
  rcases lt_or_le ((⌈r * 4⌉ : ℚ) / 4) (1/4) with h | h
  · rw [if_pos h, max_eq_left h.le]
  · rw [if_neg (not_lt.mpr h), max_eq_right h]

theorem le_normalizeCpu (r : ℚ) : r ≤ normalizeCpu (some r) := by
  rw [normalizeCpu]
  have h := Int.le_ceil (r * 4)
  split
  · next hlt => linarith
  · linarith

/-- C6: CPU normalization equals `max(0.25, ceil(r*4)/4)` for every
requested value, is `0.25` when no value is requested, never rounds down,
and never caps large values (with the spec's example values). -/
theorem cpu_normalization :
    (∀ r : ℚ, normalizeCpu (some r) = max (1/4 : ℚ) ((⌈r * 4⌉ : ℚ) / 4) ∧
      r ≤ normalizeCpu (some r)) ∧
    normalizeCpu none = 1/4 ∧
    normalizeCpu (some (3/10)) = 1/2 ∧
    normalizeCpu (some (6/10)) = 3/4 ∧
    normalizeCpu (some (17/10)) = 7/4 ∧
    normalizeCpu (some (1/10)) = 1/4 ∧
    normalizeCpu (some 5) = 5 ∧
    normalizeCpu (some (35/4)) = 35/4 ∧
    normalizeCpu (some 16) = 16 := by
  refine ⟨fun r => ⟨normalizeCpu_some r, le_normalizeCpu r⟩, rfl, ?_, ?_, ?_, ?_, ?_, ?_, ?_⟩
  · rw [normalizeCpu_some, show (⌈(3/10 : ℚ) * 4⌉ : ℤ) = 2 by rw [Int.ceil_eq_iff] <;> norm_num]
    norm_num
  · rw [normalizeCpu_some, show (⌈(6/10 : ℚ) * 4⌉ : ℤ) = 3 by rw [Int.ceil_eq_iff] <;> norm_num]
    norm_num
  · rw [normalizeCpu_some, show (⌈(17/10 : ℚ) * 4⌉ : ℤ) = 7 by rw [Int.ceil_eq_iff] <;> norm_num]
    norm_num
  · rw [normalizeCpu_some, show (⌈(1/10 : ℚ) * 4⌉ : ℤ) = 1 by rw [Int.ceil_eq_iff] <;> norm_num]
    norm_num
  · rw [normalizeCpu_some, show (⌈(5 : ℚ) * 4⌉ : ℤ) = 20 by rw [Int.ceil_eq_iff] <;> norm_num]
    norm_num
  · rw [normalizeCpu_some, show (⌈(35/4 : ℚ) * 4⌉ : ℤ) = 35 by rw [Int.ceil_eq_iff] <;> norm_num]
    norm_num
  · rw [normalizeCpu_some, show (⌈(16 : ℚ) * 4⌉ : ℤ) = 64 by rw [Int.ceil_eq_iff] <;> norm_num]
    norm_num

/-! ## Claim C7 -/

theorem natCeilDiv_eq_ceil (num den : ℕ) (hden : 0 < den) :
    (⌈(num : ℚ) / den⌉ : ℤ) = ((num + den - 1) / den : ℕ) := by
  set q := (num + den - 1) / den with hq
  have hd : (0 : ℚ) < den := by exact_mod_cast hden
  have h1 : den * q ≤ num + den - 1 := Nat.mul_div_le (num + den - 1) den
  have hmod := Nat.mod_add_div (num + den - 1) den
  have hlt := Nat.mod_lt (num + den - 1) hden
  have h2 : num + den - 1 < den + den * q := by
    conv_lhs => rw [← hmod]
    exact Nat.add_lt_add_right hlt _
  have hA : num ≤ den * q := by
    rcases Nat.eq_zero_or_pos num with h0 | hpos
    · simp [h0]
    · have hrw : num + den - 1 = num - 1 + den := by omega
      rw [hrw] at h2
      have h3 : num - 1 < den * q := by
        rw [Nat.add_comm den (den * q)] at h2
        exact Nat.lt_of_add_lt_add_right h2
      have h4 : num - 1 + 1 ≤ den * q := Nat.succ_le_of_lt h3
      rwa [Nat.sub_add_cancel hpos] at h4
  have hB : den * q < num + den :=
    Nat.lt_of_le_of_lt h1 (by omega)
  rw [Int.ceil_eq_iff]
  constructor
  · have hBq : ((den : ℚ) * q) < num + den := by exact_mod_cast hB
    rw [lt_div_iff₀ hd]
    push_cast
    linarith
  · rw [div_le_iff₀ hd]
    have hAq : (num : ℚ) ≤ den * q := by exact_mod_cast hA
    push_cast
    linarith

theorem parseDecimal_den_pos {cs : List Char} {a b : ℕ}
    (h : parseDecimal cs = some (a, b)) : 0 < b := by
  unfold parseDecimal at h
  rcases hsp : cs.splitOn '.' with _ | ⟨w, _ | ⟨f, _ | _⟩⟩ <;> rw [hsp] at h <;>
    dsimp only at h
  · cases h
  · by_cases hc : w ≠ [] ∧ w.all Char.isDigit = true
    · rw [if_pos hc] at h
      have h2 := Option.some_inj.mp h
      injection h2 with ha hb
      omega
    · rw [if_neg hc] at h
      cases h
  · by_cases hc : w ≠ [] ∧ f ≠ [] ∧ w.all Char.isDigit = true ∧ f.all Char.isDigit = true
    · rw [if_pos hc] at h
      have h2 := Option.some_inj.mp h
      injection h2 with ha hb
      rw [← hb]
      exact Nat.pow_pos (by norm_num)
    · rw [if_neg hc] at h
      cases h
  · cases h

theorem parseMemoryParts_den_pos {s : String} {num den : ℕ}
    (h : parseMemoryParts s = some (num, den)) : 0 < den := by
  unfold parseMemoryParts at h
  rcases hrev : s.data.reverse with _ | ⟨c2, _ | ⟨c1, rest⟩⟩ <;> rw [hrev] at h <;>
    dsimp only at h
  · cases h
  · cases h
  · rcases hu : unitFactor c1 c2 with _ | f <;> rw [hu] at h
    · cases h
    · rcases hp : parseDecimal rest.reverse with _ | ⟨a, b⟩ <;> rw [hp] at h <;>
        (try dsimp only at h)
      · cases h
      · obtain ⟨-, rfl⟩ : a * f = num ∧ b = den := by
          simpa using h
        exact parseDecimal_den_pos hp

theorem normalizeMemoryMiB_parsed {s : String} {num den : ℕ}
    (h : parseMemoryParts s = some (num, den)) :
    normalizeMemoryMiB s = 256 * max 1 ((num + den * 256 - 1) / (den * 256)) := by
  unfold normalizeMemoryMiB
  rw [h]
  dsimp only
  set q := (num + den * 256 - 1) / (den * 256) with hq
  rcases Nat.le_total 1 q with hle | hle
  · rw [Nat.max_eq_right (by omega : 256 ≤ 256 * q), Nat.max_eq_right hle]
  · rw [Nat.max_eq_left (by omega : 256 * q ≤ 256), Nat.max_eq_left hle, Nat.mul_one]

/-- C7: every memory request parsing as `<number><unit>` (unit mb, gb or
tb, case-insensitive) is normalized to its MiB equivalent rounded up to a
multiple of 256 MiB with a floor of 256 MiB; every string failing the
pattern yields exactly the 256 MiB minimum, rendered `'256mb'` (with the
repository's test vectors as examples). -/
theorem memory_normalization :
    (∀ (s : String) (num den : ℕ), parseMemoryParts s = some (num, den) →
      ((normalizeMemoryMiB s : ℤ) = 256 * max 1 ⌈((num : ℚ) / (den : ℚ)) / 256⌉ ∧
        ((num : ℚ) / (den : ℚ)) ≤ (normalizeMemoryMiB s : ℚ) ∧
        256 ∣ normalizeMemoryMiB s)) ∧
    (∀ s : String, parseMemoryParts s = none → normalizeMemory s = "256mb") ∧
    normalizeMemory "300mb" = "512mb" ∧
    normalizeMemory "400mb" = "512mb" ∧
    normalizeMemory "1.1gb" = "1280mb" ∧
    normalizeMemory "1.7gb" = "1792mb" ∧
    normalizeMemory "1tb" = "1048576mb" ∧
    normalizeMemory "1.1tb" = "1153536mb" ∧
    normalizeMemory "1GB" = "1024mb" ∧
    normalizeMemory "2gb" = "2048mb" ∧
    normalizeMemory "invalid" = "256mb" ∧
    normalizeMemory "100" = "256mb" ∧
    normalizeMemory "10mb" = "256mb" ∧
    normalizeMemory "0mb" = "256mb" ∧
    normalizeMemory "-1gb" = "256mb" := by
  refine ⟨?_, ?_, by decide, by decide, by decide, by decide, by decide, by decide, by decide,
    by decide, by decide, by decide, by decide, by decide, by decide⟩
  · intro s num den h
    have hden : 0 < den := parseMemoryParts_den_pos h
    have hden256 : 0 < den * 256 := by omega
    have hdq : (0 : ℚ) < (den : ℚ) := by exact_mod_cast hden
    have hceil : (⌈(num : ℚ) / (den * 256 : ℕ)⌉ : ℤ) = ((num + den * 256 - 1) / (den * 256) : ℕ) :=
      natCeilDiv_eq_ceil num (den * 256) hden256
    have hval : ((num : ℚ) / (den : ℚ)) / 256 = (num : ℚ) / ((den * 256 : ℕ) : ℚ) := by
      push_cast
      rw [div_div]
    have hmib := normalizeMemoryMiB_parsed h
    set q := (num + den * 256 - 1) / (den * 256) with hq
    refine ⟨?_, ?_, ?_⟩
    · rw [hmib, hval, hceil]
      push_cast [Nat.cast_max]
      rfl
    · have h1 : ((num : ℚ) / (den : ℚ)) / 256 ≤ (q : ℚ) := by
        have h2 := Int.le_ceil ((num : ℚ) / ((den * 256 : ℕ) : ℚ))
        rw [hval]
        calc (num : ℚ) / ((den * 256 : ℕ) : ℚ) ≤ (⌈(num : ℚ) / ((den * 256 : ℕ) : ℚ)⌉ : ℚ) := h2
        _ = (q : ℚ) := by exact_mod_cast congrArg (fun z : ℤ => (z : ℚ)) hceil
      have h3 : ((num : ℚ) / (den : ℚ)) ≤ 256 * (q : ℚ) := by linarith
      have h4 : (256 * q : ℕ) ≤ normalizeMemoryMiB s := by
        rw [hmib]
        exact Nat.mul_le_mul_left 256 (Nat.le_max_right 1 q)
      have h5 : ((256 * q : ℕ) : ℚ) ≤ (normalizeMemoryMiB s : ℚ) := by exact_mod_cast h4
      push_cast at h5
      linarith
    · rw [hmib]
      exact Dvd.intro _ rfl
  · intro s h
    unfold normalizeMemory normalizeMemoryMiB
    rw [h]
    rfl

/-- Witness for the C7 theorem at the request `"300mb"`. -/
theorem memory_normalization_witness :
    (normalizeMemoryMiB "300mb" : ℤ) = 256 * max 1 ⌈(((300 : ℕ) : ℚ) / ((1 : ℕ) : ℚ)) / 256⌉ ∧
    (((300 : ℕ) : ℚ) / ((1 : ℕ) : ℚ)) ≤ (normalizeMemoryMiB "300mb" : ℚ) ∧
    256 ∣ normalizeMemoryMiB "300mb" :=
  memory_normalization.1 "300mb" 300 1 (by decide)

/-! ## Claim C8 -/

/-- C8: a Python subprocess that completes without an exec error but with
nonempty standard-error text is rejected with the stderr-specific failure
carrying the stderr text, and that failure is distinct from the exec
failure, the missing-output failure and success. -/
theorem python_stderr_fatal (o : PyProcOutcome)
    (herr : o.execError = none) (hstderr : o.stderr ≠ "") :
    runPythonResult o = PyRunResult.stderrFailure o.stderr ∧
    (∀ d, PyRunResult.stderrFailure o.stderr ≠ PyRunResult.execFailure d) ∧
    PyRunResult.stderrFailure o.stderr ≠ PyRunResult.missingOutput ∧
    (∀ out, PyRunResult.stderrFailure o.stderr ≠ PyRunResult.success out) := by
  refine ⟨?_, fun d h => PyRunResult.noConfusion h, fun h => PyRunResult.noConfusion h,
    fun out h => PyRunResult.noConfusion h⟩
  unfold runPythonResult
  rw [herr]
  dsimp only
  rw [if_pos hstderr]

/-- Witness for the C8 theorem at a concrete process outcome. -/
theorem python_stderr_fatal_witness :
    runPythonResult ⟨none, "boom", some "out"⟩ = PyRunResult.stderrFailure "boom" :=
  (python_stderr_fatal ⟨none, "boom", some "out"⟩ rfl (by decide)).1

end Chainos
